import Mathlib

set_option maxHeartbeats 1000000

/-!
Verification of the advanced-vector repository (src/advanced-vector/vector.h).

The C++ code manages raw storage and object lifetimes by hand, so the
embedding models each memory cell explicitly: a cell is either raw
(uninitialized storage) or live (it holds a constructed object).  Every
element-level primitive of the source (placement new, copy/move
assignment, destructor call, the std uninitialized algorithms) becomes a
function returning `Option`, where `none` marks undefined behavior
(reading or assigning raw storage, destroying a cell that holds no
object, going out of bounds).  Capacity is the length of the cell list,
mirroring `RawMemory`'s `capacity_` which always equals the size of the
allocated block.
-/

namespace AdvVec

/-- A memory cell of a raw buffer: either uninitialized raw storage or a
live (constructed) object holding a value. -/
inductive Cell (α : Type) where
  | raw : Cell α
  | live : α → Cell α
  deriving DecidableEq

/-- Model of the `RawMemory` class: an exclusively owned block of cells.
The buffer pointer plus capacity pair is modelled as a list of cells
whose length is the capacity; a capacity-0 block (null buffer) is the
empty list. -/
structure RawMemory (α : Type) where
  cells : List (Cell α)
  deriving DecidableEq

namespace RawMemory

/-- `RawMemory::Capacity()`. -/
def capacity (m : RawMemory α) : Nat := m.cells.length

/-- Reading the object stored at cell `i`: defined only when the cell
holds a live object (reading raw storage or out of bounds is undefined
behavior, modelled as `none`). -/
def readAt (m : RawMemory α) (i : Nat) : Option α :=
  match m.cells.get? i with
  | some (Cell.live a) => some a
  | _ => none

/-- Placement-new of a value into cell `i`: requires the cell to exist
and to be raw storage. -/
def constructAt (m : RawMemory α) (i : Nat) (a : α) : Option (RawMemory α) :=
  match m.cells.get? i with
  | some Cell.raw => some ⟨m.cells.set i (Cell.live a)⟩
  | _ => none

/-- Copy/move assignment into cell `i`: requires a live object at `i`
(assigning to storage outside any object's lifetime is undefined
behavior). -/
def assignAt (m : RawMemory α) (i : Nat) (a : α) : Option (RawMemory α) :=
  match m.cells.get? i with
  | some (Cell.live _) => some ⟨m.cells.set i (Cell.live a)⟩
  | _ => none

/-- Calling the destructor of the object at cell `i`: requires a live
object there; destroying raw storage is undefined behavior. -/
def destroyAt (m : RawMemory α) (i : Nat) : Option (RawMemory α) :=
  match m.cells.get? i with
  | some (Cell.live _) => some ⟨m.cells.set i Cell.raw⟩
  | _ => none

/-- `std::destroy_n(first, n)`: destroys the `n` objects starting at cell
`start`, in increasing address order. -/
def destroyN (m : RawMemory α) (start : Nat) : Nat → Option (RawMemory α)
  | 0 => some m
  | n + 1 => do
    let m' ← m.destroyAt start
    m'.destroyN (start + 1) n

/-- `std::move(first, last, d_first)` within the buffer (used by
`Vector::Erase`): assigns forward, cell `first + j` into cell
`dfirst + j` for `j = 0, 1, ...`; the count argument is `last - first`. -/
def moveRange (m : RawMemory α) (first dfirst : Nat) : Nat → Option (RawMemory α)
  | 0 => some m
  | n + 1 => do
    let a ← m.readAt first
    let m' ← m.assignAt dfirst a
    m'.moveRange (first + 1) (dfirst + 1) n

/-- `std::move_backward(first, last, d_last)` within the buffer (used by
`Vector::Emplace`): assigns cell `first + j` into cell `dfirst + j`,
processed from the highest index down; the count argument is
`last - first` and `dfirst` is `d_last - (last - first)`. -/
def moveBackwardRange (m : RawMemory α) (first dfirst : Nat) : Nat → Option (RawMemory α)
  | 0 => some m
  | n + 1 => do
    let a ← m.readAt (first + n)
    let m' ← m.assignAt (dfirst + n) a
    m'.moveBackwardRange first dfirst n

/-- `std::uninitialized_move_n(src, 1, dst)` within one buffer for a
single element (used by `Vector::Emplace` to move the last element into
the one-past-end cell). -/
def moveConstructWithin (m : RawMemory α) (src dst : Nat) : Option (RawMemory α) := do
  let a ← m.readAt src
  m.constructAt dst a

end RawMemory

/-- `std::uninitialized_copy_n` / `std::uninitialized_move_n` from one
buffer into another: constructs `n` elements read from `src` starting at
`sStart` into raw cells of `dst` starting at `dStart`.  At the level of
the stored values the move branch and the copy branch chosen by the
source's `if constexpr` produce the same destination contents, so one
definition covers both. -/
def uninitCopyN (src : RawMemory α) (sStart : Nat) (dst : RawMemory α) (dStart : Nat) :
    Nat → Option (RawMemory α)
  | 0 => some dst
  | n + 1 => do
    let a ← src.readAt sStart
    let dst' ← dst.constructAt dStart a
    uninitCopyN src (sStart + 1) dst' (dStart + 1) n

/-- `std::copy` from one buffer into another (assigning copy, used by the
copy assignment operator): assigns `n` elements read from `src` starting
at `sStart` into live cells of `dst` starting at `dStart`. -/
def copyAssignN (src : RawMemory α) (sStart : Nat) (dst : RawMemory α) (dStart : Nat) :
    Nat → Option (RawMemory α)
  | 0 => some dst
  | n + 1 => do
    let a ← src.readAt sStart
    let dst' ← dst.assignAt dStart a
    copyAssignN src (sStart + 1) dst' (dStart + 1) n

/-- `std::copy(list.begin(), list.end(), dst)` where the source is an
initializer list: assigns the listed values one by one into cells of
`dst` starting at `dStart`.  `std::copy` performs assignments, not
constructions, so each target cell must already hold a live object. -/
def stdCopyFromList (dst : RawMemory α) (dStart : Nat) : List α → Option (RawMemory α)
  | [] => some dst
  | a :: rest => do
    let d ← dst.assignAt dStart a
    stdCopyFromList d (dStart + 1) rest

/-- Model of the `Vector` class: an owned `RawMemory` plus the count of
live elements (`size_`). -/
structure Vector (α : Type) where
  data : RawMemory α
  size : Nat
  deriving DecidableEq

namespace Vector

/-- `Vector::Capacity()`, which returns `data_.Capacity()`. -/
def capacity (v : Vector α) : Nat := v.data.capacity

/-- The default-constructed vector: null buffer, zero size. -/
def emptyVec : Vector α := ⟨⟨[]⟩, 0⟩

/-- The value stored by a cell, if any. -/
def cellValue : Cell α → Option α
  | Cell.live a => some a
  | Cell.raw => none

/-- The logical contents of the vector: the values of the first `size`
cells (the live range). -/
def elems (v : Vector α) : List α := (v.data.cells.take v.size).filterMap cellValue

/-- A vector in the canonical well-formed shape: the first `xs.length`
cells are live and hold `xs` in order, the next `k` cells are raw
storage, and `size_` is `xs.length`. -/
def build (xs : List α) (k : Nat) : Vector α :=
  ⟨⟨xs.map Cell.live ++ List.replicate k Cell.raw⟩, xs.length⟩

/-- The class invariant stated in the spec: elements at logical positions
below `size` are constructed and valid, positions from `size` up to the
capacity are raw uninitialized memory, and `size <= capacity`.
Equivalently, the vector has the canonical shape `build xs k`. -/
def wf (v : Vector α) : Prop := ∃ xs k, v = build xs k

/-- `Vector::EmplaceBack` (success path, with the fully constructed new
element as argument).  If spare capacity exists the element is
placement-new'ed into cell `size_`; otherwise a new block of
`max(Capacity() * 2, size_ + 1)` cells is allocated, the new element is
constructed at offset `size_` in it, the old elements are transferred
(`uninitialized_move_n`/`uninitialized_copy_n`), the old elements are
destroyed and the blocks are exchanged. -/
def emplaceBack (v : Vector α) (a : α) : Option (Vector α) :=
  if v.capacity > v.size then
    (v.data.constructAt v.size a).map fun m => ⟨m, v.size + 1⟩
  else do
    let nd0 : RawMemory α := ⟨List.replicate (max (v.capacity * 2) (v.size + 1)) Cell.raw⟩
    let nd1 ← nd0.constructAt v.size a
    let nd2 ← uninitCopyN v.data 0 nd1 0 v.size
    let _ ← v.data.destroyN 0 v.size
    some ⟨nd2, v.size + 1⟩

/-- `Vector::PushBack`, which forwards to `EmplaceBack`. -/
def pushBack (v : Vector α) (a : α) : Option (Vector α) := v.emplaceBack a

/-- A sequence of `PushBack`/`EmplaceBack` calls, one per listed value. -/
def pushList (v : Vector α) : List α → Option (Vector α)
  | [] => some v
  | a :: rest => do
    let v' ← v.emplaceBack a
    v'.pushList rest

/-- A sequence of appends that also counts how many of the calls had to
reallocate (no spare capacity). -/
def pushCountList (v : Vector α) : List α → Option (Vector α × Nat)
  | [] => some (v, 0)
  | a :: rest => do
    let v' ← v.emplaceBack a
    let p ← v'.pushCountList rest
    some (p.1, (if v.capacity > v.size then 0 else 1) + p.2)

/-- `Vector::Emplace(pos, args...)` (success path), with `offset`
standing for `pos - begin()` and `a` for the element the constructor
arguments produce.  Follows the source: with spare capacity and an
interior position, the new value is built as a temporary, the last
element is move-constructed into the one-past-end cell, the range
`[offset, size-1)` is shifted right by `move_backward`, and the
temporary is move-assigned into cell `offset`; at the end position it is
constructed in place; without spare capacity a new block of
`max(Capacity() * 2, size_ + 1)` cells is built around offset. -/
def emplace (v : Vector α) (offset : Nat) (a : α) : Option (Vector α × Nat) :=
  if v.capacity > v.size then
    if offset ≠ v.size then do
      let m1 ← v.data.moveConstructWithin (v.size - 1) v.size
      let m2 ← m1.moveBackwardRange offset (offset + 1) (v.size - 1 - offset)
      let m3 ← m2.assignAt offset a
      some (⟨m3, v.size + 1⟩, offset)
    else
      (v.data.constructAt v.size a).map fun m => (⟨m, v.size + 1⟩, offset)
  else do
    let nd0 : RawMemory α := ⟨List.replicate (max (v.capacity * 2) (v.size + 1)) Cell.raw⟩
    let nd1 ← nd0.constructAt offset a
    let nd2 ← uninitCopyN v.data 0 nd1 0 offset
    let nd3 ← uninitCopyN v.data offset nd2 (offset + 1) (v.size - offset)
    let _ ← v.data.destroyN 0 v.size
    some (⟨nd3, v.size + 1⟩, offset)

/-- `Vector::Erase(pos)`, with `offset = pos - begin()`: unless the
position is the last element, `std::move` shifts every subsequent
element one slot left; then the vacated final slot is destroyed and
`size_` is decremented.  Returns the new container and the returned
iterator's offset. -/
def erase (v : Vector α) (offset : Nat) : Option (Vector α × Nat) := do
  let m1 ← if offset ≠ v.size - 1 then
      v.data.moveRange (offset + 1) offset (v.size - (offset + 1))
    else some v.data
  let m2 ← m1.destroyN (v.size - 1) 1
  some (⟨m2, v.size - 1⟩, offset)

/-- `Vector::Vector(std::initializer_list<T>)`: allocates a raw block of
`list.size()` cells, sets `size_`, and fills the block with
`std::copy`, i.e. with assignments into the uninitialized cells. -/
def fromInitList (xs : List α) : Option (Vector α) :=
  let nd : RawMemory α := ⟨List.replicate xs.length Cell.raw⟩
  (stdCopyFromList nd 0 xs).map fun m => ⟨m, xs.length⟩

/-- `Vector::Vector(const Vector&)`: allocates `other.size_` cells and
copy-constructs the elements into them with
`std::uninitialized_copy_n`. -/
def copyCtor (other : Vector α) : Option (Vector α) :=
  let nd : RawMemory α := ⟨List.replicate other.size Cell.raw⟩
  (uninitCopyN other.data 0 nd 0 other.size).map fun m => ⟨m, other.size⟩

/-- `Vector::Vector(Vector&&)`.  `data_(std::move(other.data_))` invokes
the `RawMemory` move constructor, which swaps with the freshly
default-initialized members and therefore leaves the source's buffer
null with capacity 0.  `size_(std::move(other.size_))` merely copies the
integer: the source's `size_` is left unchanged.  Returns the pair
(constructed vector, state of the moved-from source). -/
def moveCtor (other : Vector α) : Vector α × Vector α :=
  (⟨other.data, other.size⟩, ⟨⟨[]⟩, other.size⟩)

/-- `Vector::operator=(Vector&&)`.  The self-assignment guard
`this != &rhs` makes assignment from itself a no-op.  Otherwise
`data_ = std::move(rhs.data_)` swaps the two `RawMemory` objects (so the
source receives the target's old buffer) and `size_ = std::move(rhs.size_)`
copies the integer, leaving `rhs.size_` unchanged.  Returns the pair
(new state of the target, new state of the source). -/
def moveAssignOp (self rhs : Vector α) (isSelf : Bool) : Vector α × Vector α :=
  if isSelf then (self, rhs)
  else (⟨rhs.data, rhs.size⟩, ⟨self.data, rhs.size⟩)

/-- `Vector::operator=(const Vector&)` for distinct objects.  If the
source's size exceeds this capacity: copy-construct a whole new vector
and `Swap` with it (the old elements are then destroyed by the
temporary's destructor, which runs `destroy_n` only when the buffer is
non-null).  Otherwise the overlapping prefix is copy-assigned and
either the surplus source elements are copy-constructed into the raw
tail or the surplus target elements are destroyed. -/
def copyAssign (self rhs : Vector α) : Option (Vector α) :=
  if rhs.size > self.data.capacity then do
    let c ← copyCtor rhs
    let _ ← if self.data.capacity ≠ 0 then self.data.destroyN 0 self.size else some self.data
    some c
  else if rhs.size > self.size then do
    let m ← copyAssignN rhs.data 0 self.data 0 self.size
    let m' ← uninitCopyN rhs.data self.size m self.size (rhs.size - self.size)
    some ⟨m', rhs.size⟩
  else do
    let m ← copyAssignN rhs.data 0 self.data 0 rhs.size
    let m' ← if rhs.size < self.size then m.destroyN rhs.size (self.size - rhs.size)
             else some m
    some ⟨m', rhs.size⟩

/-- `Vector::operator=(const Vector&)` including the `this != &rhs`
self-assignment guard, which makes assignment from itself a no-op. -/
def copyAssignOp (self rhs : Vector α) (isSelf : Bool) : Option (Vector α) :=
  if isSelf then some self else copyAssign self rhs

/-- `Vector::Swap`, guarded by `data_.GetAddress() != other.data_.GetAddress()`;
for one and the same object the two addresses coincide, so the swap body
is skipped.  Returns the pair of resulting states. -/
def swapOp (a b : Vector α) (sameAddr : Bool) : Vector α × Vector α :=
  if sameAddr then (a, b) else (⟨b.data, b.size⟩, ⟨a.data, a.size⟩)

/-- `Vector::~Vector()`: when the buffer address is non-null (in the
model: nonzero capacity) it destroys the first `size_` objects; a null
buffer skips the `destroy_n` call. -/
def destructor (v : Vector α) : Option Unit :=
  if v.capacity ≠ 0 then (v.data.destroyN 0 v.size).map fun _ => ()
  else some ()

/-- Outcome of an operation in which an element operation may throw:
either normal completion or an exception that propagated, each with the
resulting container state.  Undefined behavior is `none` at the
`Option` level wrapping this type. -/
inductive OpResult (α : Type) where
  | ok : Vector α → OpResult α
  | thrown : Vector α → OpResult α
  deriving DecidableEq

/-- `std::uninitialized_copy_n`/`uninitialized_move_n` when the element
copy/move constructor may throw.  `failAt = some j` means constructing
the `j`-th transferred element (0-based) throws.  Per the C++ standard,
the algorithm itself destroys the objects it has already constructed
before letting the exception propagate, so on failure the destination
block is returned with those cells raw again (`Except.error`). -/
def uninitCopyNThrow (src : RawMemory α) (sStart : Nat) (dst : RawMemory α) (dStart : Nat)
    (n : Nat) (failAt : Option Nat) : Option (Except (RawMemory α) (RawMemory α)) :=
  match failAt with
  | none => (uninitCopyN src sStart dst dStart n).map Except.ok
  | some j =>
    if j < n then do
      let d1 ← uninitCopyN src sStart dst dStart j
      let d2 ← d1.destroyN dStart j
      some (Except.error d2)
    else (uninitCopyN src sStart dst dStart n).map Except.ok

/-- `Vector::EmplaceBack` with a possibly-throwing element type.
`newElem = none` means the construction of the new element itself
throws; `failAt = some j` means the transfer of the `j`-th existing
element into the new block throws.  Follows the source line by line: in
the reallocating branch the new element is constructed at offset
`size_` of the new block, the transfer runs inside `try`, and the
`catch` handler executes `std::destroy_n(new_data.GetAddress(), size_ + 1)`
before re-throwing. -/
def emplaceBackThrow (v : Vector α) (newElem : Option α) (failAt : Option Nat) :
    Option (OpResult α) :=
  if v.capacity > v.size then
    match newElem with
    | none => some (OpResult.thrown v)
    | some a => (v.data.constructAt v.size a).map fun m => OpResult.ok ⟨m, v.size + 1⟩
  else
    match newElem with
    | none => some (OpResult.thrown v)
    | some a => do
      let nd0 : RawMemory α := ⟨List.replicate (max (v.capacity * 2) (v.size + 1)) Cell.raw⟩
      let nd1 ← nd0.constructAt v.size a
      let r ← uninitCopyNThrow v.data 0 nd1 0 v.size failAt
      match r with
      | Except.ok nd2 => do
        let _ ← v.data.destroyN 0 v.size
        some (OpResult.ok ⟨nd2, v.size + 1⟩)
      | Except.error nd2 => do
        let _ ← nd2.destroyN 0 (v.size + 1)
        some (OpResult.thrown v)

end Vector

/-- A heap for the aliasing-sensitive claims: the list of all allocated
blocks, indexed by address. -/
structure Heap (α : Type) where
  blocks : List (RawMemory α)
  deriving DecidableEq

namespace Heap

/-- Allocation: a fresh block of `n` raw cells at a fresh address. -/
def alloc (h : Heap α) (n : Nat) : Heap α × Nat :=
  (⟨h.blocks ++ [⟨List.replicate n Cell.raw⟩]⟩, h.blocks.length)

/-- The block stored at an address. -/
def blockAt (h : Heap α) (i : Nat) : RawMemory α := (h.blocks.get? i).getD ⟨[]⟩

/-- Overwriting the block at an address (a mutation through a vector that
owns that block). -/
def setBlock (h : Heap α) (i : Nat) (m : RawMemory α) : Heap α := ⟨h.blocks.set i m⟩

end Heap

/-- A vector as a handle into the heap: the address of its exclusively
owned block plus its live-element count. -/
structure VectorRef where
  addr : Nat
  size : Nat
  deriving DecidableEq

/-- `Vector::Vector(const Vector&)` in the heap model: allocate a fresh
block of `other.size_` cells (`data_(other.size_)`) and copy-construct
the source's elements into it (`std::uninitialized_copy_n`). -/
def copyCtorH (h : Heap α) (src : VectorRef) : Option (Heap α × VectorRef) :=
  let p := h.alloc src.size
  match uninitCopyN (p.1.blockAt src.addr) 0 (p.1.blockAt p.2) 0 src.size with
  | some nb => some (p.1.setBlock p.2 nb, ⟨p.2, src.size⟩)
  | none => none

/-! Basic list-indexing helpers for the cell-level primitives. -/

lemma get?_append_cons (pre : List β) (x : β) (post : List β) :
    (pre ++ x :: post).get? pre.length = some x := by
  induction pre with
  | nil => rfl
  | cons a t ih => simpa using ih

lemma set_append_cons (pre : List β) (x y : β) (post : List β) :
    (pre ++ x :: post).set pre.length y = pre ++ y :: post := by
  induction pre with
  | nil => rfl
  | cons a t ih => simpa using ih

lemma readAt_at (pre : List (Cell α)) (a : α) (post : List (Cell α)) (i : Nat)
    (h : i = pre.length) :
    RawMemory.readAt ⟨pre ++ Cell.live a :: post⟩ i = some a := by
  subst h; unfold RawMemory.readAt; rw [get?_append_cons]

lemma constructAt_at (pre : List (Cell α)) (post : List (Cell α)) (a : α) (i : Nat)
    (h : i = pre.length) :
    RawMemory.constructAt ⟨pre ++ Cell.raw :: post⟩ i a = some ⟨pre ++ Cell.live a :: post⟩ := by
  subst h; unfold RawMemory.constructAt; rw [get?_append_cons]
  simp [set_append_cons]

lemma assignAt_at (pre : List (Cell α)) (b a : α) (post : List (Cell α)) (i : Nat)
    (h : i = pre.length) :
    RawMemory.assignAt ⟨pre ++ Cell.live b :: post⟩ i a = some ⟨pre ++ Cell.live a :: post⟩ := by
  subst h; unfold RawMemory.assignAt; rw [get?_append_cons]
  simp [set_append_cons]

lemma destroyAt_at (pre : List (Cell α)) (b : α) (post : List (Cell α)) (i : Nat)
    (h : i = pre.length) :
    RawMemory.destroyAt ⟨pre ++ Cell.live b :: post⟩ i = some ⟨pre ++ Cell.raw :: post⟩ := by
  subst h; unfold RawMemory.destroyAt; rw [get?_append_cons]
  simp [set_append_cons]

/-! Shape lemmas for `Vector.build`. -/

@[simp] lemma size_build (xs : List α) (k : Nat) : (Vector.build xs k).size = xs.length := rfl

@[simp] lemma capacity_build (xs : List α) (k : Nat) :
    (Vector.build xs k).capacity = xs.length + k := by
  simp [Vector.build, Vector.capacity, RawMemory.capacity]

@[simp] lemma elems_build (xs : List α) (k : Nat) : (Vector.build xs k).elems = xs := by
  have htake : ((xs.map Cell.live ++ List.replicate k Cell.raw).take xs.length)
      = xs.map Cell.live := by
    rw [List.take_append_of_le_length (by simp)]
    simp
  simp only [Vector.elems, Vector.build, htake]
  induction xs with
  | nil => rfl
  | cons a t ih => simpa [Vector.cellValue] using ih

/-! Specifications of the bulk memory operations on canonical cell lists. -/

lemma destroyN_go (zs : List α) : ∀ (pre post : List (Cell α)),
    RawMemory.destroyN ⟨pre ++ zs.map Cell.live ++ post⟩ pre.length zs.length
      = some ⟨pre ++ List.replicate zs.length Cell.raw ++ post⟩ := by
  induction zs with
  | nil => intro pre post; simp [RawMemory.destroyN]
  | cons b zs ih =>
    intro pre post
    have h1 : RawMemory.destroyAt ⟨pre ++ (b :: zs).map Cell.live ++ post⟩ pre.length
        = some ⟨pre ++ Cell.raw :: (zs.map Cell.live ++ post)⟩ := by
      have := destroyAt_at pre b (zs.map Cell.live ++ post) pre.length rfl
      simpa using this
    have h2 := ih (pre ++ [Cell.raw]) post
    simp only [List.length_cons, RawMemory.destroyN, h1, Option.bind_eq_bind,
      Option.some_bind]
    have hlen : pre.length + 1 = (pre ++ [Cell.raw]).length := by simp
    rw [show (pre ++ Cell.raw :: (zs.map Cell.live ++ post) : List (Cell α))
        = (pre ++ [Cell.raw]) ++ zs.map Cell.live ++ post by simp, hlen, h2]
    simp [List.replicate_succ]

lemma uninitCopyN_spec (zs : List α) : ∀ (ys : List α) (srest pre post : List (Cell α)),
    uninitCopyN ⟨(ys ++ zs).map Cell.live ++ srest⟩ ys.length
        ⟨pre ++ List.replicate zs.length Cell.raw ++ post⟩ pre.length zs.length
      = some ⟨pre ++ zs.map Cell.live ++ post⟩ := by
  induction zs with
  | nil => intro ys srest pre post; simp [uninitCopyN]
  | cons b zs ih =>
    intro ys srest pre post
    have hread : RawMemory.readAt ⟨List.map Cell.live (ys ++ b :: zs) ++ srest⟩ ys.length
        = some b := by
      rw [show (List.map Cell.live (ys ++ b :: zs) ++ srest : List (Cell α))
          = List.map Cell.live ys ++ Cell.live b :: (List.map Cell.live zs ++ srest) by simp]
      exact readAt_at _ _ _ _ (by simp)
    have hcon : RawMemory.constructAt
        ⟨pre ++ List.replicate (zs.length + 1) Cell.raw ++ post⟩ pre.length b
        = some ⟨pre ++ Cell.live b :: (List.replicate zs.length Cell.raw ++ post)⟩ := by
      rw [show (pre ++ List.replicate (zs.length + 1) Cell.raw ++ post : List (Cell α))
          = pre ++ Cell.raw :: (List.replicate zs.length Cell.raw ++ post) by
            simp [List.replicate_succ]]
      exact constructAt_at _ _ _ _ rfl
    have h2 := ih (ys ++ [b]) srest (pre ++ [Cell.live b]) post
    simp only [List.length_cons, uninitCopyN, hread, hcon, Option.bind_eq_bind,
      Option.some_bind]
    rw [show ys.length + 1 = (ys ++ [b]).length by simp,
      show pre.length + 1 = (pre ++ [Cell.live b]).length by simp,
      show (List.map Cell.live (ys ++ b :: zs) ++ srest : List (Cell α))
        = List.map Cell.live ((ys ++ [b]) ++ zs) ++ srest by simp,
      show (pre ++ Cell.live b :: (List.replicate zs.length Cell.raw ++ post) : List (Cell α))
        = (pre ++ [Cell.live b]) ++ List.replicate zs.length Cell.raw ++ post by simp,
      h2]
    simp

lemma moveRange_spec (mid : List α) : ∀ (pre : List α) (x : α) (rest : List (Cell α)),
    RawMemory.moveRange ⟨(pre ++ x :: mid).map Cell.live ++ rest⟩
        (pre.length + 1) pre.length mid.length
      = some ⟨(pre ++ mid ++ (x :: mid).drop mid.length).map Cell.live ++ rest⟩ := by
  induction mid with
  | nil => intro pre x rest; simp [RawMemory.moveRange]
  | cons b mid ih =>
    intro pre x rest
    have hread : RawMemory.readAt ⟨(pre ++ x :: b :: mid).map Cell.live ++ rest⟩
        (pre.length + 1) = some b := by
      have := readAt_at ((pre ++ [x]).map Cell.live) b (mid.map Cell.live ++ rest)
        (pre.length + 1) (by simp)
      simpa using this
    have hasn : RawMemory.assignAt ⟨(pre ++ x :: b :: mid).map Cell.live ++ rest⟩
        pre.length b = some ⟨(pre ++ b :: b :: mid).map Cell.live ++ rest⟩ := by
      have := assignAt_at (pre.map Cell.live) x b ((b :: mid).map Cell.live ++ rest)
        pre.length (by simp)
      simpa using this
    have h2 := ih (pre ++ [b]) b rest
    simp only [List.length_cons, RawMemory.moveRange, hread, hasn, Option.bind_eq_bind,
      Option.some_bind]
    rw [show pre.length + 1 + 1 = (pre ++ [b]).length + 1 by simp,
      show pre.length + 1 = (pre ++ [b]).length by simp,
      show ((pre ++ b :: b :: mid).map Cell.live ++ rest : List (Cell α))
        = ((pre ++ [b]) ++ b :: mid).map Cell.live ++ rest by simp,
      h2]
    simp

lemma moveBackwardRange_succ (m : RawMemory α) (first dfirst n : Nat) :
    m.moveBackwardRange first dfirst (n + 1) = (do
      let a ← m.readAt (first + n)
      let m' ← m.assignAt (dfirst + n) a
      m'.moveBackwardRange first dfirst n) := rfl

lemma moveBackwardRange_spec (mid : List α) :
    ∀ (pre : List α) (w p0 : α) (post : List α) (rest : List (Cell α)),
    RawMemory.moveBackwardRange ⟨(pre ++ w :: mid ++ p0 :: post).map Cell.live ++ rest⟩
        pre.length (pre.length + 1) (mid.length + 1)
      = some ⟨(pre ++ w :: w :: mid ++ post).map Cell.live ++ rest⟩ := by
  induction mid using List.reverseRecOn with
  | nil =>
    intro pre w p0 post rest
    simp only [List.nil_append, List.length_nil, RawMemory.moveBackwardRange]
    have hread : RawMemory.readAt ⟨List.map Cell.live (pre ++ [w] ++ p0 :: post) ++ rest⟩
        (pre.length + 0) = some w := by
      rw [show (List.map Cell.live (pre ++ [w] ++ p0 :: post) ++ rest : List (Cell α))
          = List.map Cell.live pre ++ Cell.live w ::
              (Cell.live p0 :: (List.map Cell.live post ++ rest)) by simp]
      exact readAt_at _ _ _ _ (by simp)
    have hasn : RawMemory.assignAt ⟨List.map Cell.live (pre ++ [w] ++ p0 :: post) ++ rest⟩
        (pre.length + 1 + 0) w
        = some ⟨List.map Cell.live (pre ++ [w, w] ++ post) ++ rest⟩ := by
      rw [show (List.map Cell.live (pre ++ [w] ++ p0 :: post) ++ rest : List (Cell α))
          = (List.map Cell.live pre ++ [Cell.live w]) ++ Cell.live p0 ::
              (List.map Cell.live post ++ rest) by simp,
        show (List.map Cell.live (pre ++ [w, w] ++ post) ++ rest : List (Cell α))
          = (List.map Cell.live pre ++ [Cell.live w]) ++ Cell.live w ::
              (List.map Cell.live post ++ rest) by simp]
      exact assignAt_at _ _ _ _ _ (by simp)
    simp only [hread, hasn, Option.bind_eq_bind, Option.some_bind]
  | append_singleton mid z ih =>
    intro pre w p0 post rest
    rw [show (mid ++ [z]).length + 1 = mid.length + 1 + 1 by simp,
      moveBackwardRange_succ]
    have hread : RawMemory.readAt
        ⟨List.map Cell.live (pre ++ w :: (mid ++ [z]) ++ p0 :: post) ++ rest⟩
        (pre.length + (mid.length + 1)) = some z := by
      rw [show (List.map Cell.live (pre ++ w :: (mid ++ [z]) ++ p0 :: post) ++ rest
          : List (Cell α))
          = List.map Cell.live (pre ++ w :: mid) ++ Cell.live z ::
              (Cell.live p0 :: (List.map Cell.live post ++ rest)) by simp]
      exact readAt_at _ _ _ _ (by simp [Nat.add_comm])
    have hasn : RawMemory.assignAt
        ⟨List.map Cell.live (pre ++ w :: (mid ++ [z]) ++ p0 :: post) ++ rest⟩
        (pre.length + 1 + (mid.length + 1)) z
        = some ⟨List.map Cell.live (pre ++ w :: mid ++ z :: z :: post) ++ rest⟩ := by
      rw [show (List.map Cell.live (pre ++ w :: (mid ++ [z]) ++ p0 :: post) ++ rest
          : List (Cell α))
          = (List.map Cell.live (pre ++ w :: mid) ++ [Cell.live z]) ++ Cell.live p0 ::
              (List.map Cell.live post ++ rest) by simp,
        show (List.map Cell.live (pre ++ w :: mid ++ z :: z :: post) ++ rest
          : List (Cell α))
          = (List.map Cell.live (pre ++ w :: mid) ++ [Cell.live z]) ++ Cell.live z ::
              (List.map Cell.live post ++ rest) by simp]
      exact assignAt_at _ _ _ _ _ (by simp; omega)
    simp only [hread, hasn, Option.bind_eq_bind, Option.some_bind]
    rw [ih pre w z (z :: post) rest]
    simp

/-! Behaviour of the Vector operations on canonical well-formed vectors. -/

lemma emplaceBack_build_spare (xs : List α) (k : Nat) (a : α) :
    (Vector.build xs (k + 1)).emplaceBack a = some (Vector.build (xs ++ [a]) k) := by
  have hcon : RawMemory.constructAt
      ⟨xs.map Cell.live ++ List.replicate (k + 1) Cell.raw⟩ xs.length a
      = some ⟨xs.map Cell.live ++ Cell.live a :: List.replicate k Cell.raw⟩ := by
    rw [show (xs.map Cell.live ++ List.replicate (k + 1) Cell.raw : List (Cell α))
        = xs.map Cell.live ++ Cell.raw :: List.replicate k Cell.raw by
          simp [List.replicate_succ]]
    exact constructAt_at _ _ _ _ (by simp)
  simp only [Vector.emplaceBack]
  rw [if_pos (by simp [Vector.capacity, RawMemory.capacity, Vector.build])]
  simp only [Vector.build, hcon, Option.map_some]
  simp [List.replicate_succ]

lemma emplaceBack_build_full (xs : List α) (a : α) :
    (Vector.build xs 0).emplaceBack a
      = some (Vector.build (xs ++ [a])
          (max (xs.length * 2) (xs.length + 1) - (xs.length + 1))) := by
  have hG : xs.length + 1 ≤ max (xs.length * 2) (xs.length + 1) := Nat.le_max_right _ _
  have hcon : RawMemory.constructAt
      ⟨List.replicate (max (xs.length * 2) (xs.length + 1)) Cell.raw⟩ xs.length a
      = some ⟨List.replicate xs.length Cell.raw ++ Cell.live a ::
          List.replicate (max (xs.length * 2) (xs.length + 1) - (xs.length + 1))
            Cell.raw⟩ := by
    rw [show (List.replicate (max (xs.length * 2) (xs.length + 1)) Cell.raw
        : List (Cell α))
        = List.replicate xs.length Cell.raw ++ Cell.raw ::
            List.replicate (max (xs.length * 2) (xs.length + 1) - (xs.length + 1))
              Cell.raw by
          rw [show Cell.raw :: List.replicate
                (max (xs.length * 2) (xs.length + 1) - (xs.length + 1))
                (Cell.raw : Cell α)
              = List.replicate
                (max (xs.length * 2) (xs.length + 1) - xs.length) Cell.raw by
            rw [show max (xs.length * 2) (xs.length + 1) - xs.length
                = (max (xs.length * 2) (xs.length + 1) - (xs.length + 1)) + 1 by omega]
            simp [List.replicate_succ]]
          rw [← List.replicate_add]
          congr 1
          omega]
    exact constructAt_at _ _ _ _ (by simp)
  have hcopy : uninitCopyN ⟨xs.map Cell.live ++ List.replicate 0 Cell.raw⟩ 0
      ⟨List.replicate xs.length Cell.raw ++ Cell.live a ::
        List.replicate (max (xs.length * 2) (xs.length + 1) - (xs.length + 1))
          Cell.raw⟩ 0 xs.length
      = some ⟨xs.map Cell.live ++ Cell.live a ::
          List.replicate (max (xs.length * 2) (xs.length + 1) - (xs.length + 1))
            Cell.raw⟩ := by
    have h := uninitCopyN_spec xs [] (List.replicate 0 Cell.raw) []
      (Cell.live a :: List.replicate
        (max (xs.length * 2) (xs.length + 1) - (xs.length + 1)) Cell.raw)
    simpa using h
  have hdes : RawMemory.destroyN ⟨xs.map Cell.live ++ List.replicate 0 Cell.raw⟩ 0
      xs.length = some ⟨List.replicate xs.length Cell.raw⟩ := by
    have h := destroyN_go xs ([] : List (Cell α)) ([] : List (Cell α))
    simpa using h
  simp only [Vector.emplaceBack]
  rw [if_neg (by simp [Vector.capacity, RawMemory.capacity, Vector.build])]
  simp only [Vector.build, capacity_build, size_build, Vector.capacity,
    RawMemory.capacity, List.length_append, List.length_map, List.length_replicate,
    Nat.add_zero, hcon, hcopy, hdes, Option.bind_eq_bind, Option.some_bind]
  simp [Nat.sub_sub]

/-- Uniform form of the two previous lemmas: appending always succeeds on
a well-formed vector and keeps the canonical shape. -/
lemma emplaceBack_build (xs : List α) (k : Nat) (a : α) :
    (Vector.build xs k).emplaceBack a
      = some (Vector.build (xs ++ [a])
          (if k = 0 then max (xs.length * 2) (xs.length + 1) - (xs.length + 1)
           else k - 1)) := by
  cases k with
  | zero => simpa using emplaceBack_build_full xs a
  | succ k => simpa using emplaceBack_build_spare xs k a

lemma pushList_build (ys : List α) : ∀ (xs : List α) (k : Nat),
    ∃ k', (Vector.build xs k).pushList ys = some (Vector.build (xs ++ ys) k') := by
  induction ys with
  | nil => intro xs k; exact ⟨k, by simp [Vector.pushList]⟩
  | cons b ys ih =>
    intro xs k
    obtain ⟨k', h⟩ := ih (xs ++ [b])
      (if k = 0 then max (xs.length * 2) (xs.length + 1) - (xs.length + 1) else k - 1)
    refine ⟨k', ?_⟩
    simp only [Vector.pushList, emplaceBack_build, Option.bind_eq_bind, Option.some_bind, h]
    simp

/-- The capacity-growth invariant maintained by repeated appends that
started from the empty vector: after `r` reallocations the capacity is
exactly `2 ^ (r - 1)` (or still 0 when nothing was ever appended), and it
never exceeds twice the size. -/
def goodCap (v : Vector α) (r : Nat) : Prop :=
  (v.size = 0 ∧ v.capacity = 0 ∧ r = 0) ∨
  (1 ≤ r ∧ 1 ≤ v.size ∧ v.capacity = 2 ^ (r - 1) ∧ v.size ≤ v.capacity ∧
    v.capacity ≤ 2 * v.size)

lemma goodCap_step_spare (xs : List α) (k r : Nat) (hk : k ≠ 0)
    (h : goodCap (Vector.build xs k) r) :
    goodCap (Vector.build (xs ++ [b]) (k - 1)) r := by
  rcases h with ⟨h1, h2, h3⟩ | ⟨hr, hs, hcap, hle, hub⟩
  · simp only [size_build, capacity_build] at h1 h2
    omega
  · right
    simp only [size_build, capacity_build, List.length_append,
      List.length_singleton] at hcap hle hub ⊢
    refine ⟨hr, by omega, by omega, by omega, by omega⟩

lemma goodCap_step_full (xs : List α) (r : Nat)
    (h : goodCap (Vector.build xs 0) r) :
    goodCap (Vector.build (xs ++ [b])
      (max (xs.length * 2) (xs.length + 1) - (xs.length + 1))) (r + 1) := by
  rcases h with ⟨h1, h2, h3⟩ | ⟨hr, hs, hcap, hle, hub⟩
  · right
    simp only [goodCap, size_build, capacity_build, List.length_append,
      List.length_singleton] at h1 ⊢
    subst h3
    have hp : (2:Nat) ^ (0 + 1 - 1) = 1 := by norm_num
    rw [hp]
    refine ⟨by omega, by omega, by omega, by omega, by omega⟩
  · right
    simp only [size_build, capacity_build, Nat.add_zero, List.length_append,
      List.length_singleton] at hcap hle hub hs ⊢
    have hpow : (2:Nat) ^ (r + 1 - 1) = 2 * 2 ^ (r - 1) := by
      rw [show r + 1 - 1 = (r - 1) + 1 by omega, pow_succ]
      ring
    rw [hpow]
    generalize hA : (2:Nat) ^ (r - 1) = A at hcap ⊢
    refine ⟨by omega, by omega, by omega, by omega, by omega⟩

lemma pushCountList_build (ys : List α) : ∀ (xs : List α) (k r : Nat),
    goodCap (Vector.build xs k) r →
    ∃ k' r', (Vector.build xs k).pushCountList ys
        = some (Vector.build (xs ++ ys) k', r')
      ∧ goodCap (Vector.build (xs ++ ys) k') (r + r') := by
  induction ys with
  | nil =>
    intro xs k r h
    exact ⟨k, 0, by simp [Vector.pushCountList], by simpa using h⟩
  | cons b ys ih =>
    intro xs k r h
    cases Nat.eq_zero_or_pos k with
    | inl hk0 =>
      subst hk0
      have hflag : ¬ ((Vector.build xs 0).capacity > (Vector.build xs 0).size) := by
        simp only [capacity_build, size_build]
        omega
      have hstep := goodCap_step_full (b := b) xs r h
      obtain ⟨k', r'', h2, inv2⟩ := ih (xs ++ [b]) _ (r + 1) hstep
      refine ⟨k', 1 + r'', ?_, ?_⟩
      · simp only [Vector.pushCountList, emplaceBack_build, Option.bind_eq_bind,
          Option.some_bind, if_true, eq_self_iff_true]
        rw [if_neg hflag, h2]
        simp
      · rw [show r + (1 + r'') = r + 1 + r'' by omega]
        simpa using inv2
    | inr hkpos =>
      have hflag : (Vector.build xs k).capacity > (Vector.build xs k).size := by
        simp only [capacity_build, size_build]
        omega
      have hstep := goodCap_step_spare (b := b) xs k r (by omega) h
      obtain ⟨k', r'', h2, inv2⟩ := ih (xs ++ [b]) _ r hstep
      refine ⟨k', 0 + r'', ?_, ?_⟩
      · simp only [Vector.pushCountList, emplaceBack_build,
          if_neg (by omega : ¬ k = 0), Option.bind_eq_bind, Option.some_bind]
        rw [if_pos hflag, h2]
        simp
      · rw [show r + (0 + r'') = r + r'' by omega]
        simpa using inv2

lemma goodCap_log_bound (v : Vector α) (r : Nat) (h : goodCap v r) :
    r ≤ Nat.log 2 v.size + 2 := by
  rcases h with ⟨h1, h2, h3⟩ | ⟨hr, hs, hcap, hle, hub⟩
  · omega
  · by_cases hr2 : r ≤ 2
    · omega
    · have hpow : (2:Nat) ^ (r - 1) = 2 * 2 ^ (r - 2) := by
        rw [show r - 1 = (r - 2) + 1 by omega, pow_succ]
        ring
      rw [hpow] at hcap
      have h8 : 2 ^ (r - 2) ≤ v.size := by
        generalize hA : (2:Nat) ^ (r - 2) = A at hcap
        omega
      have hlog := (Nat.pow_le_iff_le_log (by norm_num) (by omega)).mp h8
      omega

/-- Claim C6: starting from any well-formed vector, a sequence of
successful `PushBack`/`EmplaceBack` calls appends the given values at the
end in exactly the call order (the final logical contents are the initial
contents followed by the appended values), and the final size is the
initial size plus the number of appends. -/
theorem C6_appends_in_call_order (v : Vector α) (hwf : v.wf) (ys : List α) :
    ∃ v', v.pushList ys = some v' ∧ v'.elems = v.elems ++ ys
      ∧ v'.size = v.size + ys.length ∧ v'.wf := by
  obtain ⟨xs, k, rfl⟩ := hwf
  obtain ⟨k', h⟩ := pushList_build ys xs k
  exact ⟨_, h, by simp, by simp, ⟨_, _, rfl⟩⟩

/-- Witness for C6 at a concrete input: pushing 7 then 9 onto the vector
holding 5 yields contents 5, 7, 9. -/
theorem C6_witness :
    (Vector.build [(5:Nat)] 1).wf ∧
    (∃ v', (Vector.build [(5:Nat)] 1).pushList [7, 9] = some v'
      ∧ v'.elems = (Vector.build [(5:Nat)] 1).elems ++ [7, 9]
      ∧ v'.size = (Vector.build [(5:Nat)] 1).size + 2 ∧ v'.wf) := by
  have hwf : (Vector.build [(5:Nat)] 1).wf := ⟨[5], 1, rfl⟩
  exact ⟨hwf, C6_appends_in_call_order _ hwf [7, 9]⟩

lemma erase_build (xs : List α) (k o : Nat) (ho : o < xs.length) :
    (Vector.build xs k).erase o
      = some (Vector.build (xs.take o ++ xs.drop (o + 1)) (k + 1), o) := by
  rcases xs.eq_nil_or_concat' with rfl | ⟨front, lx, rfl⟩
  · simp at ho
  simp only [List.length_append, List.length_singleton] at ho
  by_cases hlast : o = front.length
  · subst hlast
    have hcond : ¬ (front.length ≠ (front ++ [lx]).length - 1) := by simp
    have hdes : RawMemory.destroyN
        ⟨List.map Cell.live (front ++ [lx]) ++ List.replicate k Cell.raw⟩
        ((front ++ [lx]).length - 1) 1
        = some ⟨List.map Cell.live front ++ List.replicate 1 Cell.raw ++
            List.replicate k Cell.raw⟩ := by
      have h := destroyN_go [lx] (front.map Cell.live) (List.replicate k Cell.raw)
      rw [show ((front ++ [lx]).length - 1) = (front.map Cell.live).length by simp]
      rw [show (List.map Cell.live (front ++ [lx]) ++ List.replicate k Cell.raw
          : List (Cell α))
          = front.map Cell.live ++ [lx].map Cell.live ++ List.replicate k Cell.raw by simp]
      exact h
    have htake : (front ++ [lx]).take front.length = front := by
      simpa using List.take_append_of_le_length (Nat.le_refl front.length)
    have hdrop : (front ++ [lx]).drop (front.length + 1) = [] := by
      rw [show front.length + 1 = (front ++ [lx]).length by simp]
      exact List.drop_length _
    simp only [Vector.erase, Option.bind_eq_bind, Vector.build]
    rw [if_neg hcond, Option.some_bind, hdes, Option.some_bind, htake, hdrop]
    simp [List.replicate_succ]
  · have ho2 : o < front.length := by omega
    have hcond : (o ≠ (front ++ [lx]).length - 1) := by simp; omega
    obtain ⟨w, hw⟩ : ∃ w, w :: front.drop (o + 1) = front.drop o :=
      ⟨_, List.getElem_cons_drop front o ho2⟩
    have hxs : front.take o ++ w :: (front.drop (o + 1) ++ [lx]) = front ++ [lx] := by
      rw [show (w :: (front.drop (o + 1) ++ [lx]) : List α)
          = (w :: front.drop (o + 1)) ++ [lx] by simp, ← List.append_assoc, hw,
        List.take_append_drop]
    have hmove : RawMemory.moveRange
        ⟨List.map Cell.live (front ++ [lx]) ++ List.replicate k Cell.raw⟩
        (o + 1) o ((front ++ [lx]).length - (o + 1))
        = some ⟨(front.take o ++ (front.drop (o + 1) ++ [lx]) ++ [lx]).map Cell.live
            ++ List.replicate k Cell.raw⟩ := by
      have h := moveRange_spec (front.drop (o + 1) ++ [lx]) (front.take o) w
        (List.replicate k Cell.raw)
      rw [show (front.drop (o + 1) ++ [lx]).length
          = (front ++ [lx]).length - (o + 1) by simp; omega] at h
      rw [show (front.take o).length = o by simp; omega] at h
      rw [hxs] at h
      have hdrop1 : (w :: (front.drop (o + 1) ++ [lx])).drop
          ((front ++ [lx]).length - (o + 1)) = [lx] := by
        rw [show (w :: (front.drop (o + 1) ++ [lx]) : List α)
            = (w :: front.drop (o + 1)) ++ [lx] by simp]
        rw [show (front ++ [lx]).length - (o + 1)
            = (w :: front.drop (o + 1)).length by simp; omega]
        exact List.drop_left _ _
      rw [hdrop1] at h
      exact h
    have hdes : RawMemory.destroyN
        ⟨(front.take o ++ (front.drop (o + 1) ++ [lx]) ++ [lx]).map Cell.live
          ++ List.replicate k Cell.raw⟩ ((front ++ [lx]).length - 1) 1
        = some ⟨(front.take o ++ (front.drop (o + 1) ++ [lx])).map Cell.live
            ++ List.replicate 1 Cell.raw ++ List.replicate k Cell.raw⟩ := by
      have h := destroyN_go [lx]
        ((front.take o ++ (front.drop (o + 1) ++ [lx])).map Cell.live)
        (List.replicate k Cell.raw)
      rw [show ((front ++ [lx]).length - 1)
          = ((front.take o ++ (front.drop (o + 1) ++ [lx])).map Cell.live).length by
            simp; omega]
      rw [show ((front.take o ++ (front.drop (o + 1) ++ [lx]) ++ [lx]).map Cell.live
          ++ List.replicate k Cell.raw : List (Cell α))
          = (front.take o ++ (front.drop (o + 1) ++ [lx])).map Cell.live
            ++ [lx].map Cell.live ++ List.replicate k Cell.raw by simp]
      exact h
    have htake : (front ++ [lx]).take o = front.take o :=
      List.take_append_of_le_length (by omega)
    have hdropx : (front ++ [lx]).drop (o + 1) = front.drop (o + 1) ++ [lx] :=
      List.drop_append_of_le_length (by omega)
    simp only [Vector.erase, Option.bind_eq_bind, Vector.build]
    rw [if_pos hcond, hmove, Option.some_bind, hdes, Option.some_bind, htake, hdropx]
    simp only [Option.some.injEq, Prod.mk.injEq, Vector.mk.injEq, RawMemory.mk.injEq]
    refine ⟨⟨?_, ?_⟩, trivial⟩
    · simp [List.replicate_succ]
    · simp
      omega


/-- Claim C8: for a well-formed non-empty vector and a valid position
`o < size`, `Erase` removes exactly the element at `o` by shifting each
subsequent element one slot left, destroys the vacated final slot,
decrements the size by one, and preserves the relative order of the
remaining elements; the returned iterator offset is `o`. -/
theorem C8_erase_shifts_left (v : Vector α) (hwf : v.wf) (o : Nat) (ho : o < v.size) :
    ∃ v', v.erase o = some (v', o) ∧ v'.elems = v.elems.take o ++ v.elems.drop (o + 1)
      ∧ v'.size = v.size - 1 ∧ v'.wf := by
  obtain ⟨xs, k, rfl⟩ := hwf
  simp only [size_build] at ho
  refine ⟨_, erase_build xs k o ho, ?_, ?_, ⟨_, _, rfl⟩⟩
  · simp
  · simp only [size_build, List.length_append, List.length_take, List.length_drop]
    omega

/-- Witness for C8 at the spec's concrete input: erasing offset 1 of
the vector holding 1, 2, 3, 4 yields contents 1, 3, 4 with size 3. -/
theorem C8_witness :
    1 < (Vector.build [(1:Nat), 2, 3, 4] 0).size ∧
    (∃ v', (Vector.build [(1:Nat), 2, 3, 4] 0).erase 1 = some (v', 1)
      ∧ v'.elems = [1, 3, 4] ∧ v'.size = 3 ∧ v'.wf) := by
  have hwf : (Vector.build [(1:Nat), 2, 3, 4] 0).wf := ⟨[1, 2, 3, 4], 0, rfl⟩
  have ho : 1 < (Vector.build [(1:Nat), 2, 3, 4] 0).size := by decide
  obtain ⟨v', h1, h2, h3, h4⟩ := C8_erase_shifts_left _ hwf 1 ho
  refine ⟨ho, v', h1, ?_, ?_, h4⟩
  · rw [h2]; rfl
  · rw [h3]; rfl

lemma emplace_build_full (xs : List α) (o : Nat) (a : α) (ho : o ≤ xs.length) :
    (Vector.build xs 0).emplace o a
      = some (Vector.build (xs.take o ++ a :: xs.drop o)
          (max (xs.length * 2) (xs.length + 1) - (xs.length + 1)), o) := by
  have hG : xs.length + 1 ≤ max (xs.length * 2) (xs.length + 1) := Nat.le_max_right _ _
  have hcon : RawMemory.constructAt
      ⟨List.replicate (max (xs.length * 2) (xs.length + 1)) Cell.raw⟩ o a
      = some ⟨List.replicate o Cell.raw ++ Cell.live a ::
          List.replicate (max (xs.length * 2) (xs.length + 1) - (o + 1)) Cell.raw⟩ := by
    rw [show (List.replicate (max (xs.length * 2) (xs.length + 1)) Cell.raw
        : List (Cell α))
        = List.replicate o Cell.raw ++ Cell.raw ::
            List.replicate (max (xs.length * 2) (xs.length + 1) - (o + 1)) Cell.raw by
          rw [show (Cell.raw :: List.replicate
              (max (xs.length * 2) (xs.length + 1) - (o + 1)) (Cell.raw : Cell α)
              : List (Cell α))
              = List.replicate (max (xs.length * 2) (xs.length + 1) - o) Cell.raw by
            rw [show max (xs.length * 2) (xs.length + 1) - o
                = (max (xs.length * 2) (xs.length + 1) - (o + 1)) + 1 by omega]
            simp [List.replicate_succ]]
          rw [← List.replicate_add]
          congr 1
          omega]
    exact constructAt_at _ _ _ _ (by simp)
  have hcopy1 : uninitCopyN ⟨xs.map Cell.live ++ List.replicate 0 Cell.raw⟩ 0
      ⟨List.replicate o Cell.raw ++ Cell.live a ::
        List.replicate (max (xs.length * 2) (xs.length + 1) - (o + 1)) Cell.raw⟩ 0 o
      = some ⟨(xs.take o).map Cell.live ++ Cell.live a ::
          List.replicate (max (xs.length * 2) (xs.length + 1) - (o + 1)) Cell.raw⟩ := by
    have h := uninitCopyN_spec (xs.take o) [] ((xs.drop o).map Cell.live) []
      (Cell.live a :: List.replicate
        (max (xs.length * 2) (xs.length + 1) - (o + 1)) Cell.raw)
    convert h using 2
    · congr 1
      simp only [List.nil_append, List.replicate_zero, List.append_nil,
        ← List.map_append, List.take_append_drop]
    · congr 1
      simp only [List.nil_append, List.length_take]
      congr 2
      omega
    · simp only [List.length_take]
      omega
  have hcopy2 : uninitCopyN ⟨xs.map Cell.live ++ List.replicate 0 Cell.raw⟩ o
      ⟨(xs.take o).map Cell.live ++ Cell.live a ::
        List.replicate (max (xs.length * 2) (xs.length + 1) - (o + 1)) Cell.raw⟩
      (o + 1) (xs.length - o)
      = some ⟨((xs.take o).map Cell.live ++ [Cell.live a]) ++ (xs.drop o).map Cell.live
          ++ List.replicate (max (xs.length * 2) (xs.length + 1) - (xs.length + 1))
            Cell.raw⟩ := by
    have h := uninitCopyN_spec (xs.drop o) (xs.take o) (List.replicate 0 Cell.raw)
      ((xs.take o).map Cell.live ++ [Cell.live a])
      (List.replicate (max (xs.length * 2) (xs.length + 1) - (xs.length + 1)) Cell.raw)
    convert h using 2
    · congr 1
      simp only [← List.map_append, List.take_append_drop]
    · simp only [List.length_take]
      omega
    · congr 1
      simp only [List.append_assoc, List.singleton_append, List.length_drop]
      congr 2
      simp only [List.append_eq]
      rw [← List.replicate_add]
      congr 1
      omega
    · simp only [List.length_append, List.length_map, List.length_take,
        List.length_singleton]
      omega
    · simp only [List.length_drop]
  have hdes : RawMemory.destroyN ⟨xs.map Cell.live ++ List.replicate 0 Cell.raw⟩ 0
      xs.length = some ⟨List.replicate xs.length Cell.raw⟩ := by
    have h := destroyN_go xs ([] : List (Cell α)) ([] : List (Cell α))
    simpa using h
  simp only [Vector.emplace, capacity_build, size_build, Nat.add_zero]
  rw [if_neg (by omega : ¬ xs.length > xs.length)]
  simp only [Vector.build, capacity_build, size_build, Vector.capacity,
    RawMemory.capacity, List.length_append, List.length_map, List.length_replicate,
    Nat.add_zero, hcon, hcopy1, hcopy2, hdes, Option.bind_eq_bind, Option.some_bind]
  simp only [Option.some.injEq, Prod.mk.injEq, Vector.mk.injEq, RawMemory.mk.injEq]
  refine ⟨⟨?_, ?_⟩, trivial⟩
  · simp
  · simp only [List.length_append, List.length_take, List.length_cons,
      List.length_drop]
    omega

lemma emplace_build_spare (xs : List α) (k o : Nat) (a : α) (ho : o ≤ xs.length) :
    (Vector.build xs (k + 1)).emplace o a
      = some (Vector.build (xs.take o ++ a :: xs.drop o) k, o) := by
  by_cases hend : o = xs.length
  · subst hend
    have hcon : RawMemory.constructAt
        ⟨xs.map Cell.live ++ List.replicate (k + 1) Cell.raw⟩ xs.length a
        = some ⟨xs.map Cell.live ++ Cell.live a :: List.replicate k Cell.raw⟩ := by
      rw [show (xs.map Cell.live ++ List.replicate (k + 1) Cell.raw : List (Cell α))
          = xs.map Cell.live ++ Cell.raw :: List.replicate k Cell.raw by
            simp [List.replicate_succ]]
      exact constructAt_at _ _ _ _ (by simp)
    simp only [Vector.emplace, Vector.build]
    rw [if_pos (by simp only [Vector.capacity, RawMemory.capacity, List.length_append,
        List.length_map, List.length_replicate]; omega), if_neg (by simp)]
    simp only [hcon, Option.map_some]
    simp
  · have ho2 : o < xs.length := by omega
    rcases xs.eq_nil_or_concat' with rfl | ⟨front, lx, rfl⟩
    · simp at ho2
    simp only [List.length_append, List.length_singleton] at ho2 ho
    have hmv : RawMemory.moveConstructWithin
        ⟨List.map Cell.live (front ++ [lx]) ++ List.replicate (k + 1) Cell.raw⟩
        ((front ++ [lx]).length - 1) (front ++ [lx]).length
        = some ⟨List.map Cell.live (front ++ [lx]) ++ Cell.live lx ::
            List.replicate k Cell.raw⟩ := by
      have hread : RawMemory.readAt
          ⟨List.map Cell.live (front ++ [lx]) ++ List.replicate (k + 1) Cell.raw⟩
          ((front ++ [lx]).length - 1) = some lx := by
        rw [show (List.map Cell.live (front ++ [lx]) ++ List.replicate (k + 1) Cell.raw
            : List (Cell α))
            = List.map Cell.live front ++ Cell.live lx ::
                List.replicate (k + 1) Cell.raw by simp]
        exact readAt_at _ _ _ _ (by simp)
      have hcon : RawMemory.constructAt
          ⟨List.map Cell.live (front ++ [lx]) ++ List.replicate (k + 1) Cell.raw⟩
          (front ++ [lx]).length lx
          = some ⟨List.map Cell.live (front ++ [lx]) ++ Cell.live lx ::
              List.replicate k Cell.raw⟩ := by
        rw [show (List.map Cell.live (front ++ [lx]) ++ List.replicate (k + 1) Cell.raw
            : List (Cell α))
            = List.map Cell.live (front ++ [lx]) ++ Cell.raw ::
                List.replicate k Cell.raw by simp [List.replicate_succ]]
        exact constructAt_at _ _ _ _ (by simp)
      unfold RawMemory.moveConstructWithin
      rw [hread]
      simp only [Option.bind_eq_bind, Option.some_bind]
      exact hcon
    by_cases hlast : o = front.length
    · subst hlast
      have hasn : RawMemory.assignAt
          ⟨List.map Cell.live (front ++ [lx]) ++ Cell.live lx ::
            List.replicate k Cell.raw⟩ front.length a
          = some ⟨List.map Cell.live front ++ Cell.live a :: Cell.live lx ::
              List.replicate k Cell.raw⟩ := by
        rw [show (List.map Cell.live (front ++ [lx]) ++ Cell.live lx ::
            List.replicate k Cell.raw : List (Cell α))
            = List.map Cell.live front ++ Cell.live lx ::
                (Cell.live lx :: List.replicate k Cell.raw) by simp]
        exact assignAt_at _ _ _ _ _ (by simp)
      simp only [Vector.emplace, Vector.build]
      rw [if_pos (by simp only [Vector.capacity, RawMemory.capacity, List.length_append,
          List.length_map, List.length_replicate]; omega),
        if_pos (by simp)]
      simp only [Option.bind_eq_bind, hmv, Option.some_bind]
      rw [show (front ++ [lx]).length - 1 - front.length = 0 by
        simp only [List.length_append, List.length_singleton]; omega]
      simp only [RawMemory.moveBackwardRange, Option.some_bind, hasn]
      have htake : (front ++ [lx]).take front.length = front := by
        simpa using List.take_left front [lx]
      have hdrop : (front ++ [lx]).drop front.length = [lx] := by
        simpa using List.drop_append_of_le_length (Nat.le_refl front.length)
      rw [htake, hdrop]
      simp only [Option.some.injEq, Prod.mk.injEq, Vector.mk.injEq, RawMemory.mk.injEq]
      refine ⟨⟨?_, ?_⟩, trivial⟩
      · simp
      · simp
    · have ho3 : o < front.length := by omega
      obtain ⟨w, hw⟩ : ∃ w, w :: front.drop (o + 1) = front.drop o :=
        ⟨_, List.getElem_cons_drop front o ho3⟩
      have hbk : RawMemory.moveBackwardRange
          ⟨List.map Cell.live (front ++ [lx]) ++ Cell.live lx ::
            List.replicate k Cell.raw⟩ o (o + 1) ((front ++ [lx]).length - 1 - o)
          = some ⟨(front.take o ++ w :: w :: front.drop (o + 1) ++ [lx]).map Cell.live
              ++ List.replicate k Cell.raw⟩ := by
        have h := moveBackwardRange_spec (front.drop (o + 1)) (front.take o) w lx [lx]
          (List.replicate k Cell.raw)
        convert h using 2
        · congr 1
          rw [show (front.take o ++ w :: front.drop (o + 1) ++ lx :: [lx] : List α)
              = (front.take o ++ w :: front.drop (o + 1)) ++ [lx] ++ [lx] by simp, hw,
            List.take_append_drop]
          simp
        · simp only [List.length_take]
          omega
        · simp only [List.length_take]
          omega
        · simp only [List.length_drop, List.length_append, List.length_singleton]
          omega
      have hasn : RawMemory.assignAt
          ⟨(front.take o ++ w :: w :: front.drop (o + 1) ++ [lx]).map Cell.live
            ++ List.replicate k Cell.raw⟩ o a
          = some ⟨(front.take o ++ a :: w :: front.drop (o + 1) ++ [lx]).map Cell.live
              ++ List.replicate k Cell.raw⟩ := by
        rw [show ((front.take o ++ w :: w :: front.drop (o + 1) ++ [lx]).map Cell.live
            ++ List.replicate k Cell.raw : List (Cell α))
            = (front.take o).map Cell.live ++ Cell.live w ::
                ((w :: front.drop (o + 1) ++ [lx]).map Cell.live ++
                  List.replicate k Cell.raw) by simp,
          show ((front.take o ++ a :: w :: front.drop (o + 1) ++ [lx]).map Cell.live
            ++ List.replicate k Cell.raw : List (Cell α))
            = (front.take o).map Cell.live ++ Cell.live a ::
                ((w :: front.drop (o + 1) ++ [lx]).map Cell.live ++
                  List.replicate k Cell.raw) by simp]
        exact assignAt_at _ _ _ _ _ (by simp; omega)
      simp only [Vector.emplace, Vector.build]
      rw [if_pos (by simp only [Vector.capacity, RawMemory.capacity, List.length_append,
          List.length_map, List.length_replicate]; omega),
        if_pos (by simp; omega)]
      simp only [Option.bind_eq_bind, hmv, Option.some_bind, hbk, hasn]
      have htake : (front ++ [lx]).take o = front.take o :=
        List.take_append_of_le_length (by omega)
      have hdropx : (front ++ [lx]).drop o = front.drop o ++ [lx] :=
        List.drop_append_of_le_length (by omega)
      rw [htake, hdropx, ← hw]
      simp only [Option.some.injEq, Prod.mk.injEq, Vector.mk.injEq, RawMemory.mk.injEq]
      refine ⟨⟨?_, ?_⟩, trivial⟩
      · simp
      · simp only [List.length_append, List.length_take, List.length_cons,
          List.length_drop, List.length_singleton]
        omega

/-- Uniform form: Emplace on a well-formed vector at any offset up to the
size succeeds and inserts the element at that offset. -/
lemma emplace_build (xs : List α) (k o : Nat) (a : α) (ho : o ≤ xs.length) :
    (Vector.build xs k).emplace o a
      = some (Vector.build (xs.take o ++ a :: xs.drop o)
          (if k = 0 then max (xs.length * 2) (xs.length + 1) - (xs.length + 1)
           else k - 1), o) := by
  cases k with
  | zero => simpa using emplace_build_full xs o a ho
  | succ k => simpa using emplace_build_spare xs k o a ho

/-- Claim C7: for a well-formed vector of size n and an offset o in
[0, n], Insert/Emplace at o places the new element at logical position o,
preserves the relative order of all other elements, returns the offset of
the inserted element, and at o = n produces exactly the same container as
EmplaceBack (Append). -/
theorem C7_emplace_at_position (v : Vector α) (hwf : v.wf) (o : Nat) (ho : o ≤ v.size)
    (a : α) :
    ∃ v', v.emplace o a = some (v', o)
      ∧ v'.elems = v.elems.take o ++ a :: v.elems.drop o
      ∧ v'.elems.get? o = some a
      ∧ v'.size = v.size + 1
      ∧ v'.wf
      ∧ (o = v.size → v.emplace o a = (v.emplaceBack a).map fun w => (w, o)) := by
  obtain ⟨xs, k, rfl⟩ := hwf
  simp only [size_build] at ho
  refine ⟨_, emplace_build xs k o a ho, by simp, ?_, ?_, ⟨_, _, rfl⟩, ?_⟩
  · have h := get?_append_cons (xs.take o) a (xs.drop o)
    rw [show (xs.take o).length = o by simp only [List.length_take]; omega] at h
    simpa using h
  · simp only [size_build, List.length_append, List.length_take, List.length_cons,
      List.length_drop]
    omega
  · intro h
    have h2 : o = xs.length := by simpa using h
    subst h2
    rw [emplace_build xs k xs.length a (Nat.le_refl _), emplaceBack_build]
    simp

/-- Witness for C7 at the spec's concrete inputs: inserting 1 at offset 0
of the vector holding 2, 4, 6 yields 1, 2, 4, 6; inserting 8 at the
end-offset 3 yields 2, 4, 6, 8 and coincides with appending 8. -/
theorem C7_witness :
    (∃ v', (Vector.build [(2:Nat), 4, 6] 0).emplace 0 1 = some (v', 0)
      ∧ v'.elems = [1, 2, 4, 6] ∧ v'.size = 4)
    ∧ (∃ v', (Vector.build [(2:Nat), 4, 6] 0).emplace 3 8 = some (v', 3)
      ∧ v'.elems = [2, 4, 6, 8]
      ∧ (Vector.build [(2:Nat), 4, 6] 0).emplace 3 8
          = ((Vector.build [(2:Nat), 4, 6] 0).emplaceBack 8).map fun w => (w, 3)) := by
  have hwf : (Vector.build [(2:Nat), 4, 6] 0).wf := ⟨[2, 4, 6], 0, rfl⟩
  obtain ⟨v1, h1, h2, h3, h4, h5, h6⟩ := C7_emplace_at_position _ hwf 0 (by decide) 1
  obtain ⟨v2, g1, g2, g3, g4, g5, g6⟩ := C7_emplace_at_position _ hwf 3 (by decide) 8
  refine ⟨⟨v1, h1, ?_, ?_⟩, ⟨v2, g1, ?_, g6 (by decide)⟩⟩
  · rw [h2]; rfl
  · rw [h4]; rfl
  · rw [g2]; rfl

/-- Claim C5: whenever an append or insert finds no spare capacity, the
newly allocated block's capacity is exactly max(2 * capacity, size + 1);
appending never decreases the capacity; and reaching n elements from the
empty vector by repeated appends performs at most log2 n + 2
reallocations. -/
theorem C5_growth_policy (v : Vector α) (hwf : v.wf) (a : α) (o : Nat)
    (ho : o ≤ v.size) (ys : List α) :
    (v.capacity ≤ v.size →
      (v.emplaceBack a).map Vector.capacity = some (max (2 * v.capacity) (v.size + 1)))
    ∧ (v.capacity ≤ v.size →
      ((v.emplace o a).map fun p => p.1.capacity)
        = some (max (2 * v.capacity) (v.size + 1)))
    ∧ (∀ v', v.emplaceBack a = some v' → v.capacity ≤ v'.capacity)
    ∧ (∃ v' r, Vector.pushCountList Vector.emptyVec ys = some (v', r)
        ∧ r ≤ Nat.log 2 ys.length + 2) := by
  obtain ⟨xs, k, rfl⟩ := hwf
  simp only [size_build] at ho
  refine ⟨?_, ?_, ?_, ?_⟩
  · intro hfull
    simp only [capacity_build, size_build] at hfull ⊢
    have hk : k = 0 := by omega
    subst hk
    rw [emplaceBack_build_full]
    simp only [Option.map_some', capacity_build, List.length_append,
      List.length_singleton]
    congr 1
    omega
  · intro hfull
    simp only [capacity_build, size_build] at hfull ⊢
    have hk : k = 0 := by omega
    subst hk
    rw [emplace_build_full xs o a ho]
    simp only [Option.map_some', capacity_build, List.length_append,
      List.length_take, List.length_cons, List.length_drop]
    congr 1
    omega
  · intro v' h
    cases k with
    | zero =>
      rw [emplaceBack_build_full] at h
      simp only [Option.some.injEq] at h
      subst h
      simp only [capacity_build, List.length_append, List.length_singleton]
      omega
    | succ k =>
      rw [emplaceBack_build_spare] at h
      simp only [Option.some.injEq] at h
      subst h
      simp only [capacity_build, List.length_append, List.length_singleton]
      omega
  · have he : (Vector.emptyVec : Vector α) = Vector.build [] 0 := rfl
    have hgc : goodCap (Vector.build ([] : List α) 0) 0 := by
      left
      refine ⟨rfl, by simp, rfl⟩
    obtain ⟨k', r', h, inv⟩ := pushCountList_build ys [] 0 0 hgc
    refine ⟨Vector.build ([] ++ ys) k', r', by rw [he]; simpa using h, ?_⟩
    have hb := goodCap_log_bound (Vector.build ([] ++ ys) k') (0 + r') inv
    simpa using hb

/-- Witness for C5 at concrete inputs: the full two-element vector grows
to capacity max(4, 3) on append and on insert at offset 1, and pushing
five values from empty needs at most log2 5 + 2 reallocations. -/
theorem C5_witness :
    (((Vector.build [(1:Nat), 2] 0).emplaceBack 9).map Vector.capacity
      = some (max (2 * (Vector.build [(1:Nat), 2] 0).capacity)
          ((Vector.build [(1:Nat), 2] 0).size + 1)))
    ∧ ((((Vector.build [(1:Nat), 2] 0).emplace 1 9).map fun p => p.1.capacity)
      = some (max (2 * (Vector.build [(1:Nat), 2] 0).capacity)
          ((Vector.build [(1:Nat), 2] 0).size + 1)))
    ∧ (∃ v' r, Vector.pushCountList Vector.emptyVec [(1:Nat), 2, 3, 4, 5] = some (v', r)
        ∧ r ≤ Nat.log 2 5 + 2) := by
  have hwf : (Vector.build [(1:Nat), 2] 0).wf := ⟨[1, 2], 0, rfl⟩
  obtain ⟨h1, h2, h3, h4⟩ := C5_growth_policy _ hwf 9 1 (by decide) [1, 2, 3, 4, 5]
  exact ⟨h1 (by decide), h2 (by decide), h4⟩

/-- Claim C10: the self-assignment guard `this != &rhs` in both assignment
operators and the address-equality guard in `Swap` make copy assignment
from itself, move assignment from itself, and swapping with itself
no-ops: size, capacity, and element values are all unchanged. -/
theorem C10_self_ops_identity (v : Vector α) :
    Vector.copyAssignOp v v true = some v
    ∧ Vector.moveAssignOp v v true = (v, v)
    ∧ Vector.swapOp v v true = (v, v) :=
  ⟨rfl, rfl, rfl⟩

/-- Claim C2 (code bug, evaluated): moving out of the one-element vector
transfers the contents to the destination, but the source keeps
`size_ = 1` with a null buffer of capacity 0 (`std::move(other.size_)`
copies the integer without resetting it), so the source is not emptied;
it survives destruction only thanks to the destructor's null-buffer
guard, and copy-assigning an empty vector into it runs `destroy_n` over
one element of a null buffer, which is undefined behavior. -/
theorem C2_moved_from_source_not_emptied :
    (Vector.moveCtor (Vector.build [(7:Nat)] 0)).1.elems = [7]
    ∧ (Vector.moveCtor (Vector.build [(7:Nat)] 0)).1.size = 1
    ∧ (Vector.moveCtor (Vector.build [(7:Nat)] 0)).2.size = 1
    ∧ (Vector.moveCtor (Vector.build [(7:Nat)] 0)).2.capacity = 0
    ∧ Vector.destructor (Vector.moveCtor (Vector.build [(7:Nat)] 0)).2 = some ()
    ∧ Vector.copyAssignOp (Vector.moveCtor (Vector.build [(7:Nat)] 0)).2
        Vector.emptyVec false = none :=
  ⟨rfl, rfl, rfl, rfl, rfl, rfl⟩

/-- Claim C3 (code bug, evaluated): the one-element vector satisfies the
invariant `size <= capacity`, but after a move construction the
moved-from source has `size_ = 1` and capacity 0, and after a move
assignment into an empty vector the source likewise ends with `size_ = 1`
and capacity 0: the invariant is violated by the moved-from state. -/
theorem C3_invariant_broken_by_move :
    ((Vector.build [(7:Nat)] 0).size ≤ (Vector.build [(7:Nat)] 0).capacity)
    ∧ ¬ ((Vector.moveCtor (Vector.build [(7:Nat)] 0)).2.size
        ≤ (Vector.moveCtor (Vector.build [(7:Nat)] 0)).2.capacity)
    ∧ ¬ ((Vector.moveAssignOp Vector.emptyVec (Vector.build [(7:Nat)] 0) false).2.size
        ≤ (Vector.moveAssignOp Vector.emptyVec
            (Vector.build [(7:Nat)] 0) false).2.capacity) := by
  refine ⟨by decide, by decide, by decide⟩

/-- Claim C4 (code bug, evaluated): the initializer-list constructor fills
the freshly allocated raw block with `std::copy`, i.e. with assignments
into cells where no object has been constructed — undefined behavior for
any non-empty list (modelled as `none`); only the empty list yields a
vector. -/
theorem C4_init_list_assigns_raw_memory :
    Vector.fromInitList [(1:Nat), 2] = none
    ∧ Vector.fromInitList ([] : List Nat) = some Vector.emptyVec :=
  ⟨rfl, rfl⟩

/-- Claim C1 (code bug, evaluated): on the reallocating EmplaceBack of a
one-element full vector, if construction of the new element itself throws
the container is left untouched (second and third conjuncts show the
throw-free and construction-throw behaviour), but if the transfer of the
existing element throws, the catch handler calls
`std::destroy_n(new_data.GetAddress(), size_ + 1)` even though
`std::uninitialized_copy_n` has already destroyed everything it had
constructed, so a destructor runs on a never-constructed raw cell:
undefined behavior (`none`) instead of a clean unwinding. -/
theorem C1_catch_destroys_raw_cells :
    Vector.emplaceBackThrow (Vector.build [(5:Nat)] 0) (some 6) (some 0) = none
    ∧ Vector.emplaceBackThrow (Vector.build [(5:Nat)] 0) none none
        = some (Vector.OpResult.thrown (Vector.build [(5:Nat)] 0))
    ∧ Vector.emplaceBackThrow (Vector.build [(5:Nat)] 0) (some 6) none
        = some (Vector.OpResult.ok (Vector.build [5, 6] 0)) := by
  refine ⟨by decide, by decide, by decide⟩

/-! Heap-level lemmas for the deep-copy independence claim. -/

lemma get?_append_left (l1 l2 : List β) : ∀ (i : Nat), i < l1.length →
    (l1 ++ l2).get? i = l1.get? i := by
  induction l1 with
  | nil => intro i h; simp at h
  | cons a t ih =>
    intro i h
    cases i with
    | zero => rfl
    | succ i => simpa using ih i (by simpa using h)

lemma get?_set_ne_at (l : List β) (i j : Nat) (b : β) (h : i ≠ j) :
    (l.set i b).get? j = l.get? j := by
  rw [List.get?_eq_getElem?, List.get?_eq_getElem?]
  exact List.getElem?_set_ne h

lemma get?_set_self_at (l : List β) (i : Nat) (b : β) (h : i < l.length) :
    (l.set i b).get? i = some b := by
  rw [List.get?_eq_getElem?]
  exact List.getElem?_set_self h

/-- Claim C9: copy construction allocates a fresh block at a fresh
address, produces a vector whose contents are element-by-element equal to
the source with the same size, does not touch the source's block, and —
because the two blocks are distinct — any later overwrite of the copy's
block leaves the source's block (its elements, count, and capacity)
unchanged: deep-copy independence. -/
theorem C9_copy_independence (h : Heap α) (src : VectorRef) (xs : List α)
    (srest : List (Cell α)) (haddr : src.addr < h.blocks.length)
    (hblock : (h.blockAt src.addr).cells = xs.map Cell.live ++ srest)
    (hsize : src.size = xs.length) :
    ∃ h' w, copyCtorH h src = some (h', w)
      ∧ w.size = src.size
      ∧ (h'.blockAt w.addr).cells = xs.map Cell.live
      ∧ w.addr ≠ src.addr
      ∧ h'.blockAt src.addr = h.blockAt src.addr
      ∧ ∀ m : RawMemory α, (h'.setBlock w.addr m).blockAt src.addr
          = h'.blockAt src.addr := by
  have hsrcm : h.blockAt src.addr = (⟨xs.map Cell.live ++ srest⟩ : RawMemory α) := by
    rw [← hblock]
  have hb1 : (⟨h.blocks ++ [⟨List.replicate src.size Cell.raw⟩]⟩ : Heap α).blockAt
      src.addr = h.blockAt src.addr := by
    simp only [Heap.blockAt]
    rw [get?_append_left _ _ _ haddr]
  have hb2 : (⟨h.blocks ++ [⟨List.replicate src.size Cell.raw⟩]⟩ : Heap α).blockAt
      h.blocks.length = ⟨List.replicate src.size Cell.raw⟩ := by
    simp only [Heap.blockAt]
    rw [get?_append_cons h.blocks _ []]
    rfl
  have hcopy : uninitCopyN
      ((⟨h.blocks ++ [⟨List.replicate src.size Cell.raw⟩]⟩ : Heap α).blockAt src.addr)
      0 ((⟨h.blocks ++ [⟨List.replicate src.size Cell.raw⟩]⟩ : Heap α).blockAt
        h.blocks.length) 0 src.size
      = some ⟨xs.map Cell.live⟩ := by
    rw [hb1, hb2, hsrcm, hsize]
    have hs := uninitCopyN_spec xs [] srest ([] : List (Cell α)) ([] : List (Cell α))
    simpa using hs
  refine ⟨(⟨h.blocks ++ [⟨List.replicate src.size Cell.raw⟩]⟩ : Heap α).setBlock
      h.blocks.length ⟨xs.map Cell.live⟩, ⟨h.blocks.length, src.size⟩, ?_, rfl, ?_,
      ?_, ?_, ?_⟩
  · simp only [copyCtorH, Heap.alloc]
    rw [hcopy]
  · simp only [Heap.setBlock, Heap.blockAt]
    rw [get?_set_self_at _ _ _ (by simp)]
    rfl
  · simp only [ne_eq]
    omega
  · simp only [Heap.setBlock, Heap.blockAt]
    rw [get?_set_ne_at _ _ _ _ (by omega)]
    rw [get?_append_left _ _ _ haddr]
  · intro m
    simp only [Heap.setBlock, Heap.blockAt]
    rw [get?_set_ne_at _ _ _ _ (by omega)]

/-- Witness for C9 at a concrete input: copying a heap vector holding
1, 2 allocates a fresh block with equal contents at a different address,
and overwriting the copy's block leaves the original block unchanged. -/
theorem C9_witness :
    (0 < (⟨[⟨[Cell.live (1:Nat), Cell.live 2]⟩]⟩ : Heap Nat).blocks.length)
    ∧ ∃ h' w, copyCtorH (⟨[⟨[Cell.live (1:Nat), Cell.live 2]⟩]⟩ : Heap Nat)
        (⟨0, 2⟩ : VectorRef) = some (h', w)
      ∧ w.size = (⟨0, 2⟩ : VectorRef).size
      ∧ (h'.blockAt w.addr).cells = [(1:Nat), 2].map Cell.live
      ∧ w.addr ≠ (⟨0, 2⟩ : VectorRef).addr
      ∧ h'.blockAt (⟨0, 2⟩ : VectorRef).addr
          = (⟨[⟨[Cell.live (1:Nat), Cell.live 2]⟩]⟩ : Heap Nat).blockAt
              (⟨0, 2⟩ : VectorRef).addr
      ∧ ∀ m : RawMemory Nat, (h'.setBlock w.addr m).blockAt
          (⟨0, 2⟩ : VectorRef).addr = h'.blockAt (⟨0, 2⟩ : VectorRef).addr := by
  refine ⟨by decide, C9_copy_independence _ _ [1, 2] [] (by decide) ?_ (by decide)⟩
  rfl

end AdvVec
